import Mathlib

/-!
Shallow embedding of the quota-adaptive batch enrichment engine of the
My-Duolingo repository (src/scripts/update_thai_meanings.py and
src/scripts/add_sentences.py), together with proofs settling the frozen
claims C1..C10 about its specification.

Strings are modelled as `List Char` (`Str`).  Python's `str.strip()` /
regex `\s` whitespace class is modelled by the ASCII whitespace characters.
-/

abbrev Str := List Char

/-- Turn a Lean string literal into the `List Char` model used throughout. -/
def mkStr (s : String) : Str := s.toList

/-- Model of Python's whitespace class (`str.strip()` with no argument and
the regex class `\s`), restricted to the ASCII whitespace characters. -/
def isPySpace (c : Char) : Bool :=
  c = ' ' || c = '\t' || c = '\n' || c = '\r' || c = '\x0b' || c = '\x0c'

/-- Model of Python `s.strip()`: remove leading and trailing whitespace. -/
def stripChars (s : Str) : Str :=
  ((s.dropWhile isPySpace).reverse.dropWhile isPySpace).reverse

/-- Collapse every maximal run of whitespace characters into a single `' '`
(the effect of `re.sub(r"\s+", " ", ·)`). -/
def collapseWs : Str → Str
  | [] => []
  | c :: rest =>
    if isPySpace c then ' ' :: collapseWs (rest.dropWhile isPySpace)
    else c :: collapseWs rest
termination_by l => l.length
decreasing_by
  · simpa using Nat.lt_succ_of_le (List.dropWhile_suffix isPySpace).sublist.length_le
  · simp

/-- Structural (hence kernel-computable) formulation of `collapseWs`: the
flag records whether we are inside a whitespace run already emitted as `' '`. -/
def collapseFrom : Bool → Str → Str
  | _, [] => []
  | inRun, c :: rest =>
    if isPySpace c then
      if inRun then collapseFrom true rest else ' ' :: collapseFrom true rest
    else c :: collapseFrom false rest

/-- `normalize_token` from update_thai_meanings.py:
`re.sub(r"\s+", " ", (t or "").strip())`. -/
def normalize_token (t : Str) : Str := collapseFrom false (stripChars t)

-- Basic facts about strip / collapse, leading to idempotence of
-- `normalize_token`.

theorem dropWhile_isPySpace_head (l : Str) :
    l.dropWhile isPySpace = [] ∨
      ∃ c t, l.dropWhile isPySpace = c :: t ∧ isPySpace c = false := by
  induction l with
  | nil => exact Or.inl rfl
  | cons c rest ih =>
    by_cases h : isPySpace c
    · simpa [List.dropWhile, h] using ih
    · refine Or.inr ⟨c, rest, ?_, by simpa using h⟩
      simp [List.dropWhile, h]

theorem collapseWs_nil_iff (l : Str) : collapseWs l = [] ↔ l = [] := by
  constructor
  · intro h
    cases l with
    | nil => rfl
    | cons c rest =>
      by_cases hc : isPySpace c <;> simp [collapseWs, hc] at h
  · intro h; simp [h, collapseWs]

theorem collapseWs_cons_not_space (c : Char) (rest : Str) (h : isPySpace c = false) :
    collapseWs (c :: rest) = c :: collapseWs rest := by
  simp [collapseWs, h]

theorem collapseWs_head_not_space (l : Str) (c : Char) (t : Str)
    (hl : l ≠ [] → isPySpace (l.headI) = false)
    (h : collapseWs l = c :: t) : isPySpace c = false := by
  cases l with
  | nil => simp [collapseWs] at h
  | cons a rest =>
    have ha : isPySpace a = false := by simpa using hl (by simp)
    rw [collapseWs_cons_not_space a rest ha] at h
    cases h
    exact ha

theorem collapseWs_idem_bounded :
    ∀ n (l : Str), l.length ≤ n → collapseWs (collapseWs l) = collapseWs l := by
  intro n
  induction n with
  | zero =>
    intro l hl
    have hnil : l = [] := by cases l with
      | nil => rfl
      | cons c rest => simp at hl
    simp [hnil, collapseWs]
  | succ n ih =>
    intro l hl
    cases l with
    | nil => simp [collapseWs]
    | cons c rest =>
      by_cases hc : isPySpace c
      · have hlen : (rest.dropWhile isPySpace).length ≤ n := by
          have := (List.dropWhile_suffix isPySpace (l := rest)).sublist.length_le
          simp at hl
          omega
        have hrec := ih (rest.dropWhile isPySpace) hlen
        have hstep : collapseWs (c :: rest) =
            ' ' :: collapseWs (rest.dropWhile isPySpace) := by
          simp [collapseWs, hc]
        rw [hstep]
        have hdrop :
            (collapseWs (rest.dropWhile isPySpace)).dropWhile isPySpace =
              collapseWs (rest.dropWhile isPySpace) := by
          rcases dropWhile_isPySpace_head rest with h0 | ⟨d, u, hdu, hd⟩
          · simp [h0, collapseWs]
          · rw [hdu, collapseWs_cons_not_space d u hd]
            simp [List.dropWhile, hd]
        have hsp : isPySpace ' ' = true := by simp [isPySpace]
        simp only [collapseWs, hsp, if_pos rfl, hdrop]
        simp [hrec]
      · have hcf : isPySpace c = false := by simpa using hc
        have hstep : collapseWs (c :: rest) = c :: collapseWs rest := by
          simp [collapseWs, hc]
        rw [hstep]
        have hrec : collapseWs (collapseWs rest) = collapseWs rest := by
          refine ih rest ?_
          simp at hl; omega
        rw [collapseWs_cons_not_space c _ hcf, hrec]

/-- Collapsing is idempotent. -/
theorem collapseWs_idem (l : Str) : collapseWs (collapseWs l) = collapseWs l :=
  collapseWs_idem_bounded l.length l le_rfl

theorem collapseFrom_true_eq (l : Str) :
    collapseFrom true l = collapseFrom false (l.dropWhile isPySpace) := by
  induction l with
  | nil => rfl
  | cons c rest ih =>
    by_cases hc : isPySpace c
    · simp [collapseFrom, hc, List.dropWhile, ih]
    · simp [collapseFrom, hc, List.dropWhile]

theorem collapseFrom_false_eq_bounded :
    ∀ n (l : Str), l.length ≤ n → collapseFrom false l = collapseWs l := by
  intro n
  induction n with
  | zero =>
    intro l hl
    have hnil : l = [] := by cases l with
      | nil => rfl
      | cons c rest => simp at hl
    simp [hnil, collapseFrom, collapseWs]
  | succ n ih =>
    intro l hl
    cases l with
    | nil => simp [collapseFrom, collapseWs]
    | cons c rest =>
      by_cases hc : isPySpace c
      · have hlen : (rest.dropWhile isPySpace).length ≤ n := by
          have := (List.dropWhile_suffix isPySpace (l := rest)).sublist.length_le
          simp at hl; omega
        have h1 : collapseFrom false (c :: rest) = ' ' :: collapseFrom true rest := by
          simp [collapseFrom, hc]
        have h2 : collapseWs (c :: rest) = ' ' :: collapseWs (rest.dropWhile isPySpace) := by
          simp [collapseWs, hc]
        rw [h1, h2, collapseFrom_true_eq, ih _ hlen]
      · have hlen : rest.length ≤ n := by simp at hl; omega
        have h1 : collapseFrom false (c :: rest) = c :: collapseFrom false rest := by
          simp [collapseFrom, hc]
        rw [h1, collapseWs_cons_not_space c rest (by simpa using hc), ih _ hlen]

theorem collapseFrom_false_eq (l : Str) : collapseFrom false l = collapseWs l :=
  collapseFrom_false_eq_bounded l.length l le_rfl

/-- No leading whitespace character. -/
def NoLeadWs (l : Str) : Prop := ∀ c, l.head? = some c → isPySpace c = false

/-- No trailing whitespace character. -/
def NoTrailWs (l : Str) : Prop := ∀ c, l.getLast? = some c → isPySpace c = false

theorem dropWhile_eq_self_of_noLead (l : Str) (h : NoLeadWs l) :
    l.dropWhile isPySpace = l := by
  cases l with
  | nil => rfl
  | cons c rest =>
    have hc : isPySpace c = false := h c rfl
    simp [List.dropWhile, hc]

theorem noLead_dropWhile (l : Str) : NoLeadWs (l.dropWhile isPySpace) := by
  intro c hc
  rcases dropWhile_isPySpace_head l with h0 | ⟨d, t, hdt, hd⟩
  · rw [h0] at hc; simp at hc
  · rw [hdt] at hc; simp at hc; rw [← hc]; exact hd

theorem getLast?_suffix_eq (l₁ l₂ : Str) (h : l₁ <:+ l₂) (hne : l₁ ≠ []) :
    l₂.getLast? = l₁.getLast? := by
  obtain ⟨t, rfl⟩ := h
  rw [List.getLast?_append]
  cases hl : l₁.getLast? with
  | none => exact absurd (List.getLast?_eq_none_iff.mp hl) hne
  | some c => simp

theorem stripChars_noLead (s : Str) : NoLeadWs (stripChars s) := by
  intro c hc
  unfold stripChars at hc
  rw [List.head?_reverse] at hc
  set m := (s.dropWhile isPySpace).reverse.dropWhile isPySpace with hm
  have hmne : m ≠ [] := by
    intro h0; rw [h0] at hc; simp at hc
  have hsuf : m <:+ (s.dropWhile isPySpace).reverse := List.dropWhile_suffix _
  have := getLast?_suffix_eq m (s.dropWhile isPySpace).reverse hsuf hmne
  rw [← this] at hc
  rw [List.getLast?_reverse] at hc
  exact noLead_dropWhile s c hc

theorem stripChars_noTrail (s : Str) : NoTrailWs (stripChars s) := by
  intro c hc
  unfold stripChars at hc
  rw [List.getLast?_reverse] at hc
  exact noLead_dropWhile _ c hc

theorem stripChars_eq_self (l : Str) (h1 : NoLeadWs l) (h2 : NoTrailWs l) :
    stripChars l = l := by
  unfold stripChars
  rw [dropWhile_eq_self_of_noLead l h1]
  have : l.reverse.dropWhile isPySpace = l.reverse := by
    apply dropWhile_eq_self_of_noLead
    intro c hc
    rw [List.head?_reverse] at hc
    exact h2 c hc
  rw [this, List.reverse_reverse]

theorem collapseWs_noLead (l : Str) (h : NoLeadWs l) : NoLeadWs (collapseWs l) := by
  intro c hc
  cases l with
  | nil => simp [collapseWs] at hc
  | cons a rest =>
    have ha : isPySpace a = false := h a rfl
    rw [collapseWs_cons_not_space a rest ha] at hc
    simp at hc; rw [← hc]; exact ha

theorem collapseWs_noTrail_bounded :
    ∀ n (l : Str), l.length ≤ n → NoTrailWs l → NoTrailWs (collapseWs l) := by
  intro n
  induction n with
  | zero =>
    intro l hl _
    have hnil : l = [] := by cases l with
      | nil => rfl
      | cons c rest => simp at hl
    subst hnil; intro c hc; simp [collapseWs] at hc
  | succ n ih =>
    intro l hl ht
    cases l with
    | nil => intro c hc; simp [collapseWs] at hc
    | cons a rest =>
      cases rest with
      | nil =>
        have ha : isPySpace a = false := ht a rfl
        intro c hc
        rw [collapseWs_cons_not_space a [] ha] at hc
        simp [collapseWs] at hc
        rw [← hc]; exact ha
      | cons b u =>
        have htail : NoTrailWs (b :: u) := by
          intro c hc
          exact ht c (by rw [List.getLast?_cons_cons]; exact hc)
        by_cases hsp : isPySpace a
        · have hstep : collapseWs (a :: b :: u) =
              ' ' :: collapseWs ((b :: u).dropWhile isPySpace) := by
            simp [collapseWs, hsp]
          set r := (b :: u).dropWhile isPySpace with hr
          have hrne : r ≠ [] := by
            intro h0
            have hall := List.dropWhile_eq_nil_iff.mp h0
            obtain ⟨c, hc⟩ : ∃ c, (b :: u).getLast? = some c := by
              cases hgl : (b :: u).getLast? with
              | none => exact absurd (List.getLast?_eq_none_iff.mp hgl) (by simp)
              | some c => exact ⟨c, rfl⟩
            obtain ⟨hbu, hce⟩ := List.mem_getLast?_eq_getLast (Option.mem_def.mpr hc)
            have hmem : c ∈ b :: u := by rw [hce]; exact List.getLast_mem hbu
            have := hall c hmem
            rw [htail c hc] at this; simp at this
          have hrtrail : NoTrailWs r := by
            intro c hc
            have hsuf : r <:+ (b :: u) := List.dropWhile_suffix _
            have := getLast?_suffix_eq r (b :: u) hsuf hrne
            exact htail c (by rw [this]; exact hc)
          have hrlen : r.length ≤ n := by
            have h2 : r.length ≤ (b :: u).length := by
              rw [hr]
              exact (List.dropWhile_suffix isPySpace).sublist.length_le
            simp at hl h2; omega
          have hcoll := ih r hrlen hrtrail
          intro c hc
          rw [hstep] at hc
          have hcne : collapseWs r ≠ [] := by
            intro h0; exact hrne ((collapseWs_nil_iff r).mp h0)
          cases hcr : collapseWs r with
          | nil => exact absurd hcr hcne
          | cons x xs =>
            rw [hcr, List.getLast?_cons_cons] at hc
            exact hcoll c (by rw [hcr]; exact hc)
        · have ha : isPySpace a = false := by simpa using hsp
          have hstep := collapseWs_cons_not_space a (b :: u) ha
          intro c hc
          rw [hstep] at hc
          have hcne : collapseWs (b :: u) ≠ [] := by
            intro h0
            have := (collapseWs_nil_iff (b :: u)).mp h0
            simp at this
          have hlen : (b :: u).length ≤ n := by simp at hl ⊢; omega
          have hcoll := ih (b :: u) hlen htail
          cases hcr : collapseWs (b :: u) with
          | nil => exact absurd hcr hcne
          | cons x xs =>
            rw [hcr, List.getLast?_cons_cons] at hc
            exact hcoll c (by rw [hcr]; exact hc)

theorem collapseWs_noTrail (l : Str) (h : NoTrailWs l) : NoTrailWs (collapseWs l) :=
  collapseWs_noTrail_bounded l.length l le_rfl h

/-- `normalize_token` is idempotent. -/
theorem normalize_token_idem (t : Str) :
    normalize_token (normalize_token t) = normalize_token t := by
  unfold normalize_token
  simp only [collapseFrom_false_eq]
  have h1 : NoLeadWs (collapseWs (stripChars t)) :=
    collapseWs_noLead _ (stripChars_noLead t)
  have h2 : NoTrailWs (collapseWs (stripChars t)) :=
    collapseWs_noTrail _ (stripChars_noTrail t)
  rw [stripChars_eq_self _ h1 h2, collapseWs_idem]

-- ---------------------------------------------------------------------------
-- merge_synonyms (update_thai_meanings.py lines 55-68)
-- ---------------------------------------------------------------------------

/-- One iteration of the loops inside `merge_synonyms`: the state is the
pair `(merged, seen)`; `seen` is the Python `set` modelled as a list with
membership. -/
def addTok (st : List Str × List Str) (t : Str) : List Str × List Str :=
  let nt := normalize_token t
  if nt ≠ [] ∧ nt ∉ st.2 then (st.1 ++ [nt], st.2 ++ [nt]) else st

/-- `merge_synonyms(existing, new_items, cap)`: normalize and dedupe
`existing` first, then append not-yet-seen normalized `new_items`, and
truncate the result to `cap` entries. -/
def merge_synonyms (existing new_items : List Str) (cap : Nat) : List Str :=
  let st := existing.foldl addTok ([], [])
  let st := new_items.foldl addTok st
  st.1.take cap

/-- The merged-list component of the fold, with the `seen` set elided
(in the code `seen` always holds exactly the entries of `merged`). -/
def addAll (acc : List Str) (ts : List Str) : List Str :=
  ts.foldl
    (fun m t =>
      let nt := normalize_token t
      if nt ≠ [] ∧ nt ∉ m then m ++ [nt] else m)
    acc

theorem foldl_addTok_eq_addAll (ts : List Str) :
    ∀ acc : List Str, ts.foldl addTok (acc, acc) = (addAll acc ts, addAll acc ts) := by
  induction ts with
  | nil => intro acc; simp [addAll]
  | cons t rest ih =>
    intro acc
    by_cases h : normalize_token t ≠ [] ∧ normalize_token t ∉ acc
    · have h1 : addTok (acc, acc) t = (acc ++ [normalize_token t], acc ++ [normalize_token t]) := by
        simp only [addTok]
        rw [if_pos h]
      have h2 : addAll acc (t :: rest) = addAll (acc ++ [normalize_token t]) rest := by
        simp only [addAll, List.foldl_cons]
        rw [if_pos h]
      simp only [List.foldl_cons, h1, h2]
      exact ih _
    · have h1 : addTok (acc, acc) t = (acc, acc) := by
        simp only [addTok]
        rw [if_neg h]
      have h2 : addAll acc (t :: rest) = addAll acc rest := by
        simp only [addAll, List.foldl_cons]
        rw [if_neg h]
      simp only [List.foldl_cons, h1, h2]
      exact ih _

theorem merge_synonyms_eq_addAll (existing new_items : List Str) (cap : Nat) :
    merge_synonyms existing new_items cap =
      (addAll (addAll [] existing) new_items).take cap := by
  simp only [merge_synonyms]
  rw [foldl_addTok_eq_addAll existing []]
  rw [foldl_addTok_eq_addAll new_items (addAll [] existing)]

theorem addAll_append (acc : List Str) (t₁ t₂ : List Str) :
    addAll acc (t₁ ++ t₂) = addAll (addAll acc t₁) t₂ := by
  simp [addAll, List.foldl_append]

theorem addAll_suffix (ts : List Str) :
    ∀ acc : List Str, ∃ r, addAll acc ts = acc ++ r := by
  induction ts with
  | nil => intro acc; exact ⟨[], by simp [addAll]⟩
  | cons t rest ih =>
    intro acc
    by_cases h : normalize_token t ≠ [] ∧ normalize_token t ∉ acc
    · have h2 : addAll acc (t :: rest) = addAll (acc ++ [normalize_token t]) rest := by
        simp only [addAll, List.foldl_cons]; rw [if_pos h]
      obtain ⟨r, hr⟩ := ih (acc ++ [normalize_token t])
      exact ⟨normalize_token t :: r, by rw [h2, hr]; simp⟩
    · have h2 : addAll acc (t :: rest) = addAll acc rest := by
        simp only [addAll, List.foldl_cons]; rw [if_neg h]
      rw [h2]; exact ih acc

theorem mem_addAll_of_mem (ts : List Str) (acc : List Str) (x : Str) (hx : x ∈ acc) :
    x ∈ addAll acc ts := by
  obtain ⟨r, hr⟩ := addAll_suffix ts acc
  rw [hr]; exact List.mem_append_left r hx

theorem addAll_length_le (ts : List Str) :
    ∀ acc : List Str, (addAll acc ts).length ≤ acc.length + ts.length := by
  induction ts with
  | nil => intro acc; simp [addAll]
  | cons t rest ih =>
    intro acc
    by_cases h : normalize_token t ≠ [] ∧ normalize_token t ∉ acc
    · have h2 : addAll acc (t :: rest) = addAll (acc ++ [normalize_token t]) rest := by
        simp only [addAll, List.foldl_cons]; rw [if_pos h]
      rw [h2]
      have := ih (acc ++ [normalize_token t])
      simp at this ⊢; omega
    · have h2 : addAll acc (t :: rest) = addAll acc rest := by
        simp only [addAll, List.foldl_cons]; rw [if_neg h]
      rw [h2]
      have := ih acc
      simp at this ⊢; omega

/-- Invariant of the merged list: no duplicates, every entry is a nonempty
fixed point of `normalize_token`. -/
def GoodList (l : List Str) : Prop :=
  l.Nodup ∧ ∀ x ∈ l, normalize_token x = x ∧ x ≠ []

theorem goodList_addAll (ts : List Str) :
    ∀ acc : List Str, GoodList acc → GoodList (addAll acc ts) := by
  induction ts with
  | nil => intro acc h; simpa [addAll] using h
  | cons t rest ih =>
    intro acc hacc
    by_cases h : normalize_token t ≠ [] ∧ normalize_token t ∉ acc
    · have h2 : addAll acc (t :: rest) = addAll (acc ++ [normalize_token t]) rest := by
        simp only [addAll, List.foldl_cons]; rw [if_pos h]
      rw [h2]
      refine ih _ ⟨?_, ?_⟩
      · rw [List.nodup_append]
        exact ⟨hacc.1, List.nodup_singleton _, by simpa using fun hmem => h.2 hmem⟩
      · intro x hx
        rcases List.mem_append.mp hx with hx | hx
        · exact hacc.2 x hx
        · have hxe : x = normalize_token t := by simpa using hx
          subst hxe
          exact ⟨normalize_token_idem t, h.1⟩
    · have h2 : addAll acc (t :: rest) = addAll acc rest := by
        simp only [addAll, List.foldl_cons]; rw [if_neg h]
      rw [h2]; exact ih acc hacc

theorem addAll_absorbed (ts : List Str) :
    ∀ acc : List Str,
      (∀ t ∈ ts, normalize_token t = [] ∨ normalize_token t ∈ acc) →
      addAll acc ts = acc := by
  induction ts with
  | nil => intro acc _; simp [addAll]
  | cons t rest ih =>
    intro acc habs
    have ht := habs t (by simp)
    have h : ¬(normalize_token t ≠ [] ∧ normalize_token t ∉ acc) := by
      rcases ht with h0 | h0
      · intro hcon; exact hcon.1 h0
      · intro hcon; exact hcon.2 h0
    have h2 : addAll acc (t :: rest) = addAll acc rest := by
      simp only [addAll, List.foldl_cons]; rw [if_neg h]
    rw [h2]
    exact ih acc (fun u hu => habs u (by simp [hu]))

theorem addAll_all_absorbed (ts : List Str) :
    ∀ acc : List Str, ∀ t ∈ ts,
      normalize_token t = [] ∨ normalize_token t ∈ addAll acc ts := by
  induction ts with
  | nil => intro acc t ht; simp at ht
  | cons u rest ih =>
    intro acc t ht
    by_cases h : normalize_token u ≠ [] ∧ normalize_token u ∉ acc
    · have h2 : addAll acc (u :: rest) = addAll (acc ++ [normalize_token u]) rest := by
        simp only [addAll, List.foldl_cons]; rw [if_pos h]
      rcases List.mem_cons.mp ht with rfl | ht'
      · right
        rw [h2]
        exact mem_addAll_of_mem rest _ _ (by simp)
      · rw [h2]; exact ih _ t ht'
    · have h2 : addAll acc (u :: rest) = addAll acc rest := by
        simp only [addAll, List.foldl_cons]; rw [if_neg h]
      rcases List.mem_cons.mp ht with rfl | ht'
      · rcases Decidable.not_and_iff_or_not.mp h with h0 | h0
        · left; simpa using h0
        · right; rw [h2]
          exact mem_addAll_of_mem rest acc _ (by simpa using h0)
      · rw [h2]; exact ih acc t ht'

theorem addAll_of_good_disjoint (M : List Str) :
    ∀ acc : List Str,
      (∀ x ∈ M, normalize_token x = x ∧ x ≠ []) →
      (acc ++ M).Nodup →
      addAll acc M = acc ++ M := by
  induction M with
  | nil => intro acc _ _; simp [addAll]
  | cons m rest ih =>
    intro acc hgood hnd
    have hm := hgood m (by simp)
    have hmnotin : m ∉ acc := by
      rw [List.nodup_append] at hnd
      intro hmem
      exact hnd.2.2 hmem (by simp)
    have h : normalize_token m ≠ [] ∧ normalize_token m ∉ acc := by
      rw [hm.1]; exact ⟨hm.2, hmnotin⟩
    have h2 : addAll acc (m :: rest) = addAll (acc ++ [m]) rest := by
      simp only [addAll, List.foldl_cons]
      rw [if_pos h, hm.1]
    rw [h2, ih (acc ++ [m]) (fun x hx => hgood x (by simp [hx])) (by simpa using hnd)]
    simp

theorem goodList_nil : GoodList [] := ⟨List.nodup_nil, by simp⟩

theorem goodList_merge_core (existing new_items : List Str) :
    GoodList (addAll (addAll [] existing) new_items) :=
  goodList_addAll new_items _ (goodList_addAll existing [] goodList_nil)

/-- C2: for an existing list with at most `target_total` entries, the merged
list stays within the cap, no two of its entries agree after normalization,
the deduplicated-normalized existing entries are preserved in their original
relative order, and all new entries come after them. -/
theorem merge_synonyms_cap_nodup_order (existing new_items : List Str) (cap : Nat)
    (hk : existing.length ≤ cap) :
    (merge_synonyms existing new_items cap).length ≤ cap
    ∧ (merge_synonyms existing new_items cap).Pairwise
        (fun a b => normalize_token a ≠ normalize_token b)
    ∧ ∃ rest, merge_synonyms existing new_items cap = addAll [] existing ++ rest := by
  rw [merge_synonyms_eq_addAll]
  set A := addAll (addAll [] existing) new_items with hA
  have hgood : GoodList A := goodList_merge_core existing new_items
  refine ⟨?_, ?_, ?_⟩
  · rw [List.length_take]; exact min_le_left _ _
  · have hnodup : (A.take cap).Nodup := (List.take_sublist cap A).nodup hgood.1
    refine hnodup.imp_of_mem ?_
    intro a b ha hb hab
    have hfa := (hgood.2 a ((List.take_sublist cap A).mem ha)).1
    have hfb := (hgood.2 b ((List.take_sublist cap A).mem hb)).1
    rw [hfa, hfb]; exact hab
  · obtain ⟨r, hr⟩ := addAll_suffix new_items (addAll [] existing)
    have hlen : (addAll [] existing).length ≤ cap := by
      have := addAll_length_le existing []
      simp at this; omega
    refine ⟨r.take (cap - (addAll [] existing).length), ?_⟩
    rw [hA, hr, List.take_append_eq_append_take, List.take_of_length_le hlen]

/-- C2 witness: instantiation at concrete lists. -/
theorem merge_synonyms_cap_nodup_order_witness :
    (merge_synonyms [mkStr "a"] [mkStr "a", mkStr "b"] 2).length ≤ 2
    ∧ (merge_synonyms [mkStr "a"] [mkStr "a", mkStr "b"] 2).Pairwise
        (fun a b => normalize_token a ≠ normalize_token b)
    ∧ ∃ rest, merge_synonyms [mkStr "a"] [mkStr "a", mkStr "b"] 2 =
        addAll [] [mkStr "a"] ++ rest :=
  merge_synonyms_cap_nodup_order [mkStr "a"] [mkStr "a", mkStr "b"] 2 (by decide)

/-- C10: merging the same candidate list a second time into the result of a
merge changes nothing, for every existing list, candidate list and cap. -/
theorem merge_synonyms_idem (existing new_items : List Str) (cap : Nat) :
    merge_synonyms (merge_synonyms existing new_items cap) new_items cap =
      merge_synonyms existing new_items cap := by
  rw [merge_synonyms_eq_addAll existing, merge_synonyms_eq_addAll]
  set E := addAll [] existing with hE
  set A := addAll E new_items with hA2
  have hgood : GoodList A := goodList_merge_core existing new_items
  have hMgood : ∀ x ∈ A.take cap, normalize_token x = x ∧ x ≠ [] :=
    fun x hx => hgood.2 x ((List.take_sublist cap A).mem hx)
  have hMnodup : (A.take cap).Nodup := (List.take_sublist cap A).nodup hgood.1
  have hbase : addAll [] (A.take cap) = A.take cap := by
    have := addAll_of_good_disjoint (A.take cap) [] hMgood (by simpa using hMnodup)
    simpa using this
  rw [hbase]
  by_cases hlen : A.length ≤ cap
  · rw [List.take_of_length_le hlen]
    have habs : addAll A new_items = A :=
      addAll_absorbed new_items A (fun t ht => addAll_all_absorbed new_items E t ht)
    rw [habs]
    exact List.take_of_length_le hlen
  · have hMlen : (A.take cap).length = cap := by
      rw [List.length_take]; omega
    obtain ⟨r, hr⟩ := addAll_suffix new_items (A.take cap)
    rw [hr, List.take_append_eq_append_take, hMlen]
    simp [List.take_of_length_le (le_of_eq hMlen)]

-- ---------------------------------------------------------------------------
-- split_thai_list, records, and the per-row merge of update_thai_meanings.py
-- ---------------------------------------------------------------------------

/-- Model of Python `s.strip('\x22')`: remove leading and trailing `"` characters. -/
def stripQuotes (s : Str) : Str :=
  ((s.dropWhile (· = '\x22')).reverse.dropWhile (· = '\x22')).reverse

/-- `split_thai_list` (update_thai_meanings.py lines 44-48): strip the cell,
strip surrounding quote characters, split on commas, strip each piece and
drop the empty ones. -/
def split_thai_list (thai_value : Str) : List Str :=
  let s := stripQuotes (stripChars thai_value)
  if s = [] then []
  else ((s.splitOn ',').map stripChars).filter (· ≠ [])

/-- `", ".join(l)`. -/
def joinComma (l : List Str) : Str := List.intercalate [',', ' '] l

/-- A record is an ordered column-name-to-value mapping (a Python csv dict
row).  A missing column reads as the empty string, as `row.get(c) or ""`. -/
abbrev Record := List (Str × Str)

def getCol : Record → Str → Str
  | [], _ => []
  | (k, w) :: r, c => if k = c then w else getCol r c

def setCol : Record → Str → Str → Record
  | [], c, v => [(c, v)]
  | (k, w) :: r, c, v => if k = c then (c, v) :: r else (k, w) :: setCol r c v

/-- Mutation of one element of a row list (`batch[idx][col] = value`). -/
def modifyAt (l : List Record) (i : Nat) (f : Record → Record) : List Record :=
  l.set i (f (l.getD i []))

theorem getCol_setCol_same (r : Record) (c v : Str) : getCol (setCol r c v) c = v := by
  induction r with
  | nil => simp [setCol, getCol]
  | cons kv rest ih =>
    obtain ⟨k, w⟩ := kv
    by_cases h : k = c
    · simp [setCol, h, getCol]
    · simp [setCol, h, getCol, ih]

theorem getCol_setCol_ne (r : Record) (c c' v : Str) (h : c ≠ c') :
    getCol (setCol r c v) c' = getCol r c' := by
  induction r with
  | nil => simp [setCol, getCol, h]
  | cons kv rest ih =>
    obtain ⟨k, w⟩ := kv
    by_cases hk : k = c
    · subst hk; simp [setCol, getCol, h]
    · simp [setCol, hk, getCol, ih]

theorem modifyAt_length (l : List Record) (i : Nat) (f : Record → Record) :
    (modifyAt l i f).length = l.length := by
  simp [modifyAt]

theorem modifyAt_get_ne (l : List Record) (i j : Nat) (f : Record → Record)
    (h : j ≠ i) : (modifyAt l i f)[j]? = l[j]? := by
  simp only [modifyAt]
  exact List.getElem?_set_ne (fun h0 => h h0.symm)

theorem modifyAt_get_same (l : List Record) (i : Nat) (f : Record → Record)
    (hi : i < l.length) : (modifyAt l i f)[i]? = some (f (l.getD i [])) := by
  simp only [modifyAt]
  exact List.getElem?_set_self (by simpa using hi)

/-- The list-valued target column of update_thai_meanings.py. -/
def meaningCol : Str := mkStr "ความหมาย"

/-- The per-row requirement as the code computes it, in both
`generate_additions_batch_once` (line 147) and `process_file` (line 269):
`need = max(0, target_total - len(split_thai_list(cell)))` (Nat subtraction
models the `max(0, ·)`). -/
def rowNeedThai (target : Nat) (cell : Str) : Nat :=
  target - (split_thai_list cell).length

/-- The skip-predicate component for one row (process_file line 239):
`len(split_thai_list(row["ความหมาย"])) >= target_total`. -/
def rowSatThai (target : Nat) (r : Record) : Bool :=
  target ≤ (split_thai_list (getCol r meaningCol)).length

/-- Following the spec's words for C3 (to be compared with `rowNeedThai`):
the count of existing distinct normalized entries. -/
def distinctNormCount (cell : Str) : Nat :=
  (((split_thai_list cell).map normalize_token).dedup).length

/-- Following the spec's words for C3: `need = max(0, target_total -
count(existing distinct normalized entries))`. -/
def specRowNeedThai (target : Nat) (cell : Str) : Nat :=
  target - distinctNormCount cell

/-- The per-cell update of process_file lines 268-281: truncate the split
candidate list to `need`, merge, and replace the cell only when the merged
serialization is non-empty and differs from the old (stripped) value. -/
def applyThaiToCell (target : Nat) (cell adds : Str) : Str :=
  let need := rowNeedThai target cell
  if need = 0 then cell
  else
    let addsL := (split_thai_list adds).take need
    let ms := joinComma (merge_synonyms (split_thai_list cell) addsL target)
    let old := stripQuotes (stripChars cell)
    if ms ≠ [] ∧ ms ≠ old then ms else cell

/-- C3 counterexample: the cell `"a, a"` holds two entries that are equal
after normalization.  With `target_total = 2` the code computes `need = 0`
and judges the row satisfied, while the spec's distinct-normalized count
gives `need = 1` and judges the row unsatisfied. -/
theorem rowNeedThai_ne_specRowNeedThai :
    rowNeedThai 2 (mkStr "a, a") = 0
    ∧ specRowNeedThai 2 (mkStr "a, a") = 1
    ∧ rowNeedThai 2 (mkStr "a, a") ≠ specRowNeedThai 2 (mkStr "a, a")
    ∧ rowSatThai 2 [(meaningCol, mkStr "a, a")] = true
    ∧ distinctNormCount (mkStr "a, a") < 2 := by
  refine ⟨by decide, by decide, by decide, ?_, by decide⟩
  decide

/-- C3 amended: the per-record requirement is computed from the raw length
of the trimmed split list (duplicates and normalization-equivalent variants
counted separately): a row is treated as needing nothing exactly when that
length reaches `target_total`, such a row's cell is never changed, and only
the first `need = max(0, target_total - length)` candidate items can affect
the merge. -/
theorem applyThaiToCell_need (target : Nat) (cell a1 a2 : Str)
    (h : (split_thai_list a1).take (rowNeedThai target cell) =
         (split_thai_list a2).take (rowNeedThai target cell)) :
    applyThaiToCell target cell a1 = applyThaiToCell target cell a2
    ∧ (rowNeedThai target cell = 0 ↔ target ≤ (split_thai_list cell).length)
    ∧ (target ≤ (split_thai_list cell).length → applyThaiToCell target cell a1 = cell) := by
  have hiff : rowNeedThai target cell = 0 ↔ target ≤ (split_thai_list cell).length := by
    unfold rowNeedThai; omega
  refine ⟨?_, hiff, ?_⟩
  · unfold applyThaiToCell
    by_cases hn : rowNeedThai target cell = 0
    · simp [hn]
    · simp only [if_neg hn, h]
  · intro hsat
    have hn : rowNeedThai target cell = 0 := hiff.mpr hsat
    unfold applyThaiToCell
    simp [hn]

/-- C3 witness for the amended theorem, at concrete inputs. -/
theorem applyThaiToCell_need_witness :
    applyThaiToCell 2 (mkStr "x") (mkStr "p, q, r") = applyThaiToCell 2 (mkStr "x") (mkStr "p, q, zz")
    ∧ (rowNeedThai 2 (mkStr "x") = 0 ↔ 2 ≤ (split_thai_list (mkStr "x")).length)
    ∧ (2 ≤ (split_thai_list (mkStr "x")).length →
        applyThaiToCell 2 (mkStr "x") (mkStr "p, q, r") = mkStr "x") :=
  applyThaiToCell_need 2 (mkStr "x") (mkStr "p, q, r") (mkStr "p, q, zz") (by decide)

/-- The merge loop over one batch's parsed results (process_file lines
260-283).  Keys are pre-parsed: `none` models an index string that
`int(idx_str)` rejects.  Returns the updated batch and the number of rows
changed in this batch. -/
def applyThaiResults (target : Nat) (batch : List Record)
    (results : List (Option Int × Str)) : List Record × Nat :=
  results.foldl
    (fun (st : List Record × Nat) kv =>
      match kv.1 with
      | none => st
      | some i =>
        if i < 0 ∨ (st.1.length : Int) ≤ i then st
        else
          let n := i.toNat
          let cell := getCol (st.1.getD n []) meaningCol
          let need := rowNeedThai target cell
          if need = 0 then st
          else
            let addsL := (split_thai_list kv.2).take need
            let ms := joinComma (merge_synonyms (split_thai_list cell) addsL target)
            let old := stripQuotes (stripChars cell)
            if ms ≠ [] ∧ ms ≠ old then
              (modifyAt st.1 n (fun r0 => setCol r0 meaningCol ms), st.2 + 1)
            else st)
    (batch, 0)

-- ---------------------------------------------------------------------------
-- Response codec: extract_json_object (both scripts, identical code)
-- ---------------------------------------------------------------------------

/-- Model of a parsed JSON value (for the external `json.loads`). -/
inductive Json where
  | null : Json
  | jbool : Bool → Json
  | jnum : Int → Json
  | jstr : Str → Json
  | jarr : List Json → Json
  | jobj : List (Str × Json) → Json

/-- JSON structural whitespace. -/
def jsonWs (c : Char) : Bool := c = ' ' || c = '\t' || c = '\n' || c = '\r'

def skipW (l : Str) : Str := l.dropWhile jsonWs

/-- Resolve a JSON escape character (minimal escape set). -/
def unescapeCh : Char → Option Char
  | '\x22' => some '\x22'
  | '\\' => some '\\'
  | '/' => some '/'
  | 'n' => some '\n'
  | 't' => some '\t'
  | 'r' => some '\r'
  | _ => none

/-- Parse a JSON string body after the opening quote (minimal escapes). -/
def parseStrBody : Str → Option (Str × Str)
  | [] => none
  | '\x22' :: r => some ([], r)
  | '\\' :: e :: r =>
    (unescapeCh e).bind
      (fun c => (parseStrBody r).map (fun p => (c :: p.1, p.2)))
  | c :: r => (parseStrBody r).map (fun p => (c :: p.1, p.2))

def isDigitCh (c : Char) : Bool := '0' ≤ c && c ≤ '9'

def digitsToNat (acc : Nat) : Str → Nat × Str
  | [] => (acc, [])
  | c :: r =>
    if isDigitCh c then digitsToNat (acc * 10 + (c.toNat - '0'.toNat)) r
    else (acc, c :: r)

/-- Parse an integer literal (sign and digits; fractional and exponent forms
are outside this model). -/
def parseNum : Str → Option (Int × Str)
  | '-' :: c :: r =>
    if isDigitCh c then
      let p := digitsToNat (c.toNat - '0'.toNat) r
      some (-(p.1 : Int), p.2)
    else none
  | c :: r =>
    if isDigitCh c then
      let p := digitsToNat (c.toNat - '0'.toNat) r
      some ((p.1 : Int), p.2)
    else none
  | [] => none

mutual

/-- Recursive-descent JSON value parser, fueled by `fuel` (any fuel larger
than the nesting depth suffices). -/
def parseVal : Nat → Str → Option (Json × Str)
  | 0, _ => none
  | fuel + 1, l =>
    match skipW l with
    | 'n' :: 'u' :: 'l' :: 'l' :: r => some (.null, r)
    | 't' :: 'r' :: 'u' :: 'e' :: r => some (.jbool true, r)
    | 'f' :: 'a' :: 'l' :: 's' :: 'e' :: r => some (.jbool false, r)
    | '\x22' :: r => (parseStrBody r).map (fun p => (.jstr p.1, p.2))
    | '\x7b' :: r => (parseMembers fuel r).map (fun p => (.jobj p.1, p.2))
    | '[' :: r => (parseElems fuel r).map (fun p => (.jarr p.1, p.2))
    | l' => (parseNum l').map (fun p => (.jnum p.1, p.2))

/-- Parse the members of an object after the opening brace. -/
def parseMembers : Nat → Str → Option (List (Str × Json) × Str)
  | 0, _ => none
  | fuel + 1, l =>
    match skipW l with
    | '\x7d' :: r => some ([], r)
    | '\x22' :: r =>
      (parseStrBody r).bind (fun pk =>
        match skipW pk.2 with
        | ':' :: r2 =>
          (parseVal fuel r2).bind (fun pv =>
            match skipW pv.2 with
            | ',' :: r3 =>
              (parseMembersTail fuel r3).map (fun pt => ((pk.1, pv.1) :: pt.1, pt.2))
            | '\x7d' :: r3 => some ([(pk.1, pv.1)], r3)
            | _ => none)
        | _ => none)
    | _ => none

/-- Parse object members after a comma (a trailing comma is invalid JSON). -/
def parseMembersTail : Nat → Str → Option (List (Str × Json) × Str)
  | 0, _ => none
  | fuel + 1, l =>
    match skipW l with
    | '\x22' :: r =>
      (parseStrBody r).bind (fun pk =>
        match skipW pk.2 with
        | ':' :: r2 =>
          (parseVal fuel r2).bind (fun pv =>
            match skipW pv.2 with
            | ',' :: r3 =>
              (parseMembersTail fuel r3).map (fun pt => ((pk.1, pv.1) :: pt.1, pt.2))
            | '\x7d' :: r3 => some ([(pk.1, pv.1)], r3)
            | _ => none)
        | _ => none)
    | _ => none

/-- Parse the elements of an array after the opening bracket. -/
def parseElems : Nat → Str → Option (List Json × Str)
  | 0, _ => none
  | fuel + 1, l =>
    match skipW l with
    | ']' :: r => some ([], r)
    | l' =>
      (parseVal fuel l').bind (fun pv =>
        match skipW pv.2 with
        | ',' :: r2 => (parseElemsTail fuel r2).map (fun pt => (pv.1 :: pt.1, pt.2))
        | ']' :: r2 => some ([pv.1], r2)
        | _ => none)

/-- Parse array elements after a comma. -/
def parseElemsTail : Nat → Str → Option (List Json × Str)
  | 0, _ => none
  | fuel + 1, l =>
    (parseVal fuel l).bind (fun pv =>
      match skipW pv.2 with
      | ',' :: r2 => (parseElemsTail fuel r2).map (fun pt => (pv.1 :: pt.1, pt.2))
      | ']' :: r2 => some ([pv.1], r2)
      | _ => none)

end

/-- Model of the external `json.loads`: parse one value and require that
only whitespace remains (Python raises `Extra data` otherwise).  `none`
models a raised `JSONDecodeError`. -/
def json_loads (l : Str) : Option Json :=
  match parseVal (l.length + 1) l with
  | some (v, rest) => if skipW rest = [] then some v else none
  | none => none

/-- Effect of `re.sub(r"^```[a-zA-Z]*\s*", "", raw)` when `raw` starts with
a fence: drop the three backticks, the language word, and following
whitespace. -/
def dropFenceHead (raw : Str) : Str :=
  ((raw.drop 3).dropWhile (fun c => c.isAlpha)).dropWhile isPySpace

/-- Effect of `re.sub(r"\s*```$", "", raw)`: if the text ends with three
backticks, remove them and the whitespace before them. -/
def dropFenceEnd (r : Str) : Str :=
  let rev := r.reverse
  if rev.take 3 = ['\x60', '\x60', '\x60'] then
    ((rev.drop 3).dropWhile isPySpace).reverse
  else r

/-- The fence-stripping prologue of `extract_json_object` (both scripts):
applied only when the stripped text starts with three backticks. -/
def fenceStrip (raw : Str) : Str :=
  if raw.take 3 = ['\x60', '\x60', '\x60'] then
    stripChars (dropFenceEnd (dropFenceHead raw))
  else raw

/-- `re.search(r"\{[\s\S]*\}", raw)`: the regex is greedy, so the match
runs from the first `{` to the last `}` (it exists when some `}` follows
the first `{`). -/
def greedyBrace (l : Str) : Option Str :=
  let pre := l.dropWhile (· ≠ '\x7b')
  if pre = [] then none
  else
    let post := (pre.reverse.dropWhile (· ≠ '\x7d')).reverse
    if 2 ≤ post.length then some post else none

/-- The `isinstance(obj, dict)` check: keep a parse result only when it is
an object. -/
def asObj : Option Json → Option (List (Str × Json))
  | some (.jobj kvs) => some kvs
  | _ => none

theorem asObj_eq_some_iff (o : Option Json) (kvs : List (Str × Json)) :
    asObj o = some kvs ↔ o = some (.jobj kvs) := by
  cases o with
  | none => simp [asObj]
  | some v => cases v <;> simp [asObj]

theorem asObj_eq_none_iff (o : Option Json) :
    asObj o = none ↔ ∀ kvs, o ≠ some (.jobj kvs) := by
  cases o with
  | none => simp [asObj]
  | some v => cases v <;> simp [asObj]

/-- The parse cascade of `extract_json_object` after fence stripping:
direct parse (kept only if it yields an object), then parse of the greedy
brace substring.  `Except.error` models a raised exception: the codec's own
`ValueError`s and the uncaught `json.JSONDecodeError` of the second
`json.loads`. -/
def extractCore (raw : Str) : Except Str (List (Str × Json)) :=
  match asObj (json_loads raw) with
  | some kvs => .ok kvs
  | none =>
    match greedyBrace raw with
    | none => .error (mkStr "No JSON object found in model output")
    | some cand =>
      match json_loads (stripChars cand) with
      | none => .error (mkStr "json.JSONDecodeError")
      | some v =>
        match asObj (some v) with
        | some kvs => .ok kvs
        | none => .error (mkStr "Extracted JSON is not an object")

/-- `extract_json_object` (update_thai_meanings.py lines 71-96 and
add_sentences.py lines 36-61, identical code). -/
def extract_json_object (text : Str) : Except Str (List (Str × Json)) :=
  extractCore (fenceStrip (stripChars text))

theorem json_loads_backtick (t : Str) : json_loads ('\x60' :: t) = none := rfl

/-- C4 counterexample: the input holds two disjoint JSON objects.  Its
substring from the first `{` to the LAST `}` (the greedy regex match) is
not valid JSON, so the codec raises, although the input contains a
parseable object (`{"a": 1}` occurs inside it). -/
theorem extract_json_object_raises_despite_object :
    json_loads (mkStr "\x7b\x22a\x22: 1\x7d") = some (.jobj [(mkStr "a", .jnum 1)])
    ∧ (∃ u v, u ++ mkStr "\x7b\x22a\x22: 1\x7d" ++ v
        = mkStr "\x7b\x22a\x22: 1\x7d \x7b\x22b\x22: 2\x7d")
    ∧ extract_json_object (mkStr "\x7b\x22a\x22: 1\x7d \x7b\x22b\x22: 2\x7d")
        = .error (mkStr "json.JSONDecodeError") :=
  ⟨rfl, ⟨[], mkStr " \x7b\x22b\x22: 2\x7d", rfl⟩, rfl⟩

theorem fenceStrip_of_loads (s : Str) (v : Json)
    (h : json_loads (stripChars s) = some v) :
    fenceStrip (stripChars s) = stripChars s := by
  unfold fenceStrip
  cases hs : stripChars s with
  | nil => simp
  | cons c rest =>
    by_cases hc : (c :: rest).take 3 = ['\x60', '\x60', '\x60']
    · exfalso
      have hc0 : c = '\x60' := by
        simp [List.take] at hc
        exact hc.1
      rw [hs, hc0, json_loads_backtick] at h
      exact Option.noConfusion h
    · rw [if_neg hc]

theorem extractCore_error_iff (raw : Str) :
    (∃ e, extractCore raw = .error e) ↔
      (∀ kvs, json_loads raw ≠ some (.jobj kvs))
      ∧ (∀ cand, greedyBrace raw = some cand →
          ∀ kvs, json_loads (stripChars cand) ≠ some (.jobj kvs)) := by
  cases ho : asObj (json_loads raw) with
  | some kvs =>
    have hj : json_loads raw = some (.jobj kvs) := (asObj_eq_some_iff _ _).mp ho
    simp only [extractCore, ho]
    constructor
    · rintro ⟨e, he⟩; exact Except.noConfusion he
    · rintro ⟨h1, _⟩; exact absurd hj (h1 kvs)
  | none =>
    have h1 : ∀ kvs, json_loads raw ≠ some (.jobj kvs) := (asObj_eq_none_iff _).mp ho
    cases hg : greedyBrace raw with
    | none =>
      simp only [extractCore, ho, hg]
      constructor
      · intro _
        exact ⟨h1, fun cand hcand => Option.noConfusion hcand⟩
      · intro _
        exact ⟨_, rfl⟩
    | some cand =>
      cases hc : json_loads (stripChars cand) with
      | none =>
        simp only [extractCore, ho, hg, hc]
        constructor
        · intro _
          refine ⟨h1, ?_⟩
          intro cand2 hcand kvs
          injection hcand with he
          subst he
          rw [hc]
          exact fun h0 => Option.noConfusion h0
        · intro _
          exact ⟨_, rfl⟩
      | some v =>
        cases hv : asObj (some v) with
        | some kvs =>
          have hjv : v = .jobj kvs :=
            Option.some.inj ((asObj_eq_some_iff (some v) kvs).mp hv)
          simp only [extractCore, ho, hg, hc, hv]
          constructor
          · rintro ⟨e, he⟩; exact Except.noConfusion he
          · rintro ⟨_, h2⟩
            exact absurd (by rw [hc, hjv]) (h2 cand rfl kvs)
        | none =>
          have hnotobj : ∀ kvs, some v ≠ some (Json.jobj kvs) :=
            (asObj_eq_none_iff (some v)).mp hv
          simp only [extractCore, ho, hg, hc, hv]
          constructor
          · intro _
            refine ⟨h1, ?_⟩
            intro cand2 hcand kvs
            injection hcand with he
            subst he
            rw [hc]
            exact fun h0 => hnotobj kvs h0
          · intro _
            exact ⟨_, rfl⟩

/-- C4 amended: the codec strips a leading fence, then direct-parses, then
parses the substring from the first `{` to the LAST `}` (greedy, not the
first top-level object); it raises exactly when neither the fence-stripped
text nor that greedy brace substring parses as an object — so it can raise
on input that contains a parseable object amid other brace-bearing text,
but it never raises on input that is itself a valid object, extra keys
included. -/
theorem extract_json_object_spec (s : Str) :
    (∀ kvs, json_loads (stripChars s) = some (.jobj kvs) →
      extract_json_object s = .ok kvs)
    ∧ ((∃ e, extract_json_object s = .error e) ↔
        (∀ kvs, json_loads (fenceStrip (stripChars s)) ≠ some (.jobj kvs))
        ∧ (∀ cand, greedyBrace (fenceStrip (stripChars s)) = some cand →
            ∀ kvs, json_loads (stripChars cand) ≠ some (.jobj kvs))) := by
  constructor
  · intro kvs hk
    unfold extract_json_object
    rw [fenceStrip_of_loads s _ hk]
    unfold extractCore
    rw [hk]
    have : asObj (some (Json.jobj kvs)) = some kvs := rfl
    rw [this]
  · exact extractCore_error_iff (fenceStrip (stripChars s))

/-- C4 witness: a valid object with an extra key parses (no raise), at a
concrete input. -/
theorem extract_json_object_spec_witness :
    extract_json_object (mkStr " \x7b\x22k\x22: 3, \x22extra\x22: 4\x7d ")
      = .ok [(mkStr "k", .jnum 3), (mkStr "extra", .jnum 4)] :=
  (extract_json_object_spec (mkStr " \x7b\x22k\x22: 3, \x22extra\x22: 4\x7d ")).1
    [(mkStr "k", .jnum 3), (mkStr "extra", .jnum 4)] (by rfl)

-- ---------------------------------------------------------------------------
-- add_sentences.py: error classification and per-batch result application
-- ---------------------------------------------------------------------------

def jpCol : Str := mkStr "jp_sentence"
def thCol : Str := mkStr "th_sentence"
def exprCol : Str := mkStr "expression"

/-- Model of Python `needle in hay` membership on a prefix position. -/
def startsWith : Str → Str → Bool
  | [], _ => true
  | _ :: _, [] => false
  | a :: as, b :: bs => a = b && startsWith as bs

/-- Model of Python `needle in hay` substring membership. -/
def containsSub (needle : Str) : Str → Bool
  | [] => needle.isEmpty
  | b :: bs => startsWith needle (b :: bs) || containsSub needle bs

/-- Model of Python `str.lower()` (ASCII). -/
def lowerStr (s : Str) : Str := s.map Char.toLower

/-- `is_quota_daily_free_tier` (add_sentences.py lines 64-69): the
quota-fatal classifier. -/
def is_quota_daily_free_tier (msg : Str) : Bool :=
  containsSub (mkStr "generate_content_free_tier_requests") msg
    && containsSub (mkStr "GenerateRequestsPerDayPerProjectPerModel-FreeTier") msg

/-- `is_rate_limit` (add_sentences.py lines 72-80). -/
def is_rate_limit (msg : Str) : Bool :=
  containsSub (mkStr "429") msg
    || containsSub (mkStr "RESOURCE_EXHAUSTED") msg
    || containsSub (mkStr "Too Many Requests") msg
    || containsSub (mkStr "rate") (lowerStr msg)
    || containsSub (mkStr "quota") (lowerStr msg)

/-- `is_quota_error` (update_thai_meanings.py lines 99-107): the transient
quota classifier of the synonym script (same pattern list). -/
def is_quota_error (msg : Str) : Bool :=
  containsSub (mkStr "429") msg
    || containsSub (mkStr "RESOURCE_EXHAUSTED") msg
    || containsSub (mkStr "Too Many Requests") msg
    || containsSub (mkStr "rate") (lowerStr msg)
    || containsSub (mkStr "quota") (lowerStr msg)

/-- One parsed result entry of the sentence job: the pre-parsed key
(`none` models an index string `int()` rejects) and the payload (`none`
models a non-dict value; the pair holds the raw `jp`/`th` fields, missing
fields reading as `""`). -/
abbrev SentKV := Option Int × Option (Str × Str)

/-- `batch[idx]["jp_sentence"] = jp` guarded by emptiness of the current
value (add_sentences.py line 244). -/
def setJpIfBlank (jp : Str) (r : Record) : Record :=
  if stripChars (getCol r jpCol) = [] then setCol r jpCol jp else r

/-- `batch[idx]["th_sentence"] = th` guarded by emptiness of the current
value (add_sentences.py line 246). -/
def setThIfBlank (th : Str) (r : Record) : Record :=
  if stripChars (getCol r thCol) = [] then setCol r thCol th else r

/-- One iteration of the result-application loop of add_sentences.py
process_file lines 229-250. -/
def applySentKV (batch : List Record) (kv : SentKV) : List Record :=
  match kv.1 with
  | none => batch
  | some i =>
    if i < 0 ∨ (batch.length : Int) ≤ i then batch
    else
      match kv.2 with
      | none => batch
      | some jpth =>
        let jp := stripChars jpth.1
        let th := stripChars jpth.2
        if jp = [] ∨ th = [] then batch
        else
          let n := i.toNat
          modifyAt (modifyAt batch n (setJpIfBlank jp)) n (setThIfBlank th)

/-- The whole result-application loop over one batch (the `updated`
counter of the source is log-only and not modelled). -/
def applySentenceResults (batch : List Record) (results : List SentKV) : List Record :=
  results.foldl applySentKV batch

/-- A result entry whose payload fails the non-empty-after-trim acceptance
test (or is not a dict). -/
def SentKVBlank (kv : SentKV) : Prop :=
  kv.2 = none ∨ ∃ jp th, kv.2 = some (jp, th) ∧ (stripChars jp = [] ∨ stripChars th = [])

theorem getCol_setJpIfBlank_ne (jp : Str) (r : Record) (c : Str) (h : c ≠ jpCol) :
    getCol (setJpIfBlank jp r) c = getCol r c := by
  unfold setJpIfBlank
  by_cases hb : stripChars (getCol r jpCol) = []
  · rw [if_pos hb, getCol_setCol_ne r jpCol c jp (fun he => h he.symm)]
  · rw [if_neg hb]

theorem getCol_setThIfBlank_ne (th : Str) (r : Record) (c : Str) (h : c ≠ thCol) :
    getCol (setThIfBlank th r) c = getCol r c := by
  unfold setThIfBlank
  by_cases hb : stripChars (getCol r thCol) = []
  · rw [if_pos hb, getCol_setCol_ne r thCol c th (fun he => h he.symm)]
  · rw [if_neg hb]

theorem setJpIfBlank_of_nonblank (jp : Str) (r : Record)
    (h : stripChars (getCol r jpCol) ≠ []) : setJpIfBlank jp r = r := by
  unfold setJpIfBlank; rw [if_neg h]

theorem setThIfBlank_of_nonblank (th : Str) (r : Record)
    (h : stripChars (getCol r thCol) ≠ []) : setThIfBlank th r = r := by
  unfold setThIfBlank; rw [if_neg h]

theorem jpCol_ne_thCol : jpCol ≠ thCol := by decide

theorem getD_of_getElem? (l : List Record) (n : Nat) (r : Record)
    (h : l[n]? = some r) : l.getD n [] = r := by
  simp [List.getD, h]

/-- Frame invariant of the sentence job between the loaded batch and its
current mutated version: length preserved, non-target columns untouched,
and a target column that was non-blank keeps its original value. -/
def SentInv (batch cur : List Record) : Prop :=
  cur.length = batch.length ∧
  ∀ (i : Nat) (r r' : Record), batch[i]? = some r → cur[i]? = some r' →
    (∀ c, c ≠ jpCol → c ≠ thCol → getCol r' c = getCol r c)
    ∧ (stripChars (getCol r jpCol) ≠ [] → getCol r' jpCol = getCol r jpCol)
    ∧ (stripChars (getCol r thCol) ≠ [] → getCol r' thCol = getCol r thCol)

theorem sentInv_refl (batch : List Record) : SentInv batch batch := by
  refine ⟨rfl, ?_⟩
  intro i r r' h1 h2
  rw [h1] at h2
  injection h2 with h2
  subst h2
  exact ⟨fun c _ _ => rfl, fun _ => rfl, fun _ => rfl⟩

theorem sentInv_step (batch cur : List Record) (kv : SentKV) (h : SentInv batch cur) :
    SentInv batch (applySentKV cur kv) := by
  obtain ⟨hlen, hinv⟩ := h
  obtain ⟨k, d⟩ := kv
  cases k with
  | none => simpa [applySentKV] using ⟨hlen, hinv⟩
  | some i =>
    by_cases hrange : i < 0 ∨ (cur.length : Int) ≤ i
    · simpa [applySentKV, hrange] using ⟨hlen, hinv⟩
    · cases d with
      | none => simpa [applySentKV, hrange] using ⟨hlen, hinv⟩
      | some jpth =>
        obtain ⟨jpRaw, thRaw⟩ := jpth
        by_cases hblank : stripChars jpRaw = [] ∨ stripChars thRaw = []
        · simpa [applySentKV, hrange, hblank] using ⟨hlen, hinv⟩
        · have hred : applySentKV cur (some i, some (jpRaw, thRaw)) =
              modifyAt (modifyAt cur i.toNat (setJpIfBlank (stripChars jpRaw)))
                i.toNat (setThIfBlank (stripChars thRaw)) := by
            simp [applySentKV, hrange, hblank]
          rw [hred]
          have hn : i.toNat < cur.length := by omega
          constructor
          · rw [modifyAt_length, modifyAt_length]; exact hlen
          · intro j r r' hbr hcr'
            by_cases hj : j = i.toNat
            · subst hj
              obtain ⟨rc, hrc⟩ : ∃ rc, cur[i.toNat]? = some rc := by
                exact ⟨cur[i.toNat], (List.getElem?_eq_some_iff).mpr ⟨hn, rfl⟩⟩
              obtain ⟨hA, hB, hC⟩ := hinv i.toNat r rc hbr hrc
              have hD : cur.getD i.toNat [] = rc := getD_of_getElem? cur i.toNat rc hrc
              have hmid : (modifyAt cur i.toNat (setJpIfBlank (stripChars jpRaw)))[i.toNat]? =
                  some (setJpIfBlank (stripChars jpRaw) rc) := by
                rw [modifyAt_get_same cur i.toNat _ hn, hD]
              have hmidD : (modifyAt cur i.toNat (setJpIfBlank (stripChars jpRaw))).getD i.toNat [] =
                  setJpIfBlank (stripChars jpRaw) rc :=
                getD_of_getElem? _ i.toNat _ hmid
              rw [modifyAt_get_same _ i.toNat _ (by rw [modifyAt_length]; exact hn), hmidD] at hcr'
              injection hcr' with hr'
              subst hr'
              set f := setJpIfBlank (stripChars jpRaw) with hf
              refine ⟨?_, ?_, ?_⟩
              · intro c hcj hcth
                rw [getCol_setThIfBlank_ne _ _ c hcth, getCol_setJpIfBlank_ne _ _ c hcj]
                exact hA c hcj hcth
              · intro hnb
                have hrcnb : stripChars (getCol rc jpCol) ≠ [] := by
                  rw [hB hnb]; exact hnb
                rw [hf, setJpIfBlank_of_nonblank _ rc hrcnb]
                rw [getCol_setThIfBlank_ne _ _ jpCol jpCol_ne_thCol]
                exact hB hnb
              · intro hnb
                have hfth : getCol (f rc) thCol = getCol rc thCol :=
                  getCol_setJpIfBlank_ne _ rc thCol (fun he => jpCol_ne_thCol he.symm)
                have hrcnb : stripChars (getCol (f rc) thCol) ≠ [] := by
                  rw [hfth, hC hnb]; exact hnb
                rw [setThIfBlank_of_nonblank _ _ hrcnb, hfth]
                exact hC hnb
            · rw [modifyAt_get_ne _ _ j _ hj, modifyAt_get_ne _ _ j _ hj] at hcr'
              exact hinv j r r' hbr hcr'

theorem applySentKV_blank (batch : List Record) (kv : SentKV) (h : SentKVBlank kv) :
    applySentKV batch kv = batch := by
  obtain ⟨k, d⟩ := kv
  cases k with
  | none => simp [applySentKV]
  | some i =>
    by_cases hrange : i < 0 ∨ (batch.length : Int) ≤ i
    · simp [applySentKV, hrange]
    · rcases h with h0 | ⟨jp, th, hd, hblank⟩
      · simp at h0; subst h0; simp [applySentKV, hrange]
      · simp at hd; subst hd
        simp [applySentKV, hrange, hblank]

theorem sentInv_foldl (batch : List Record) (rs : List SentKV) :
    ∀ cur, SentInv batch cur → SentInv batch (rs.foldl applySentKV cur) := by
  induction rs with
  | nil => intro cur h; simpa using h
  | cons kv rest ih =>
    intro cur h
    rw [List.foldl_cons]
    exact ih _ (sentInv_step batch cur kv h)

theorem foldl_applySentKV_blank (rs : List SentKV) (h : ∀ kv ∈ rs, SentKVBlank kv) :
    ∀ batch, rs.foldl applySentKV batch = batch := by
  induction rs with
  | nil => intro b; rfl
  | cons kv rest ih =>
    intro b
    rw [List.foldl_cons, applySentKV_blank b kv (h kv (by simp))]
    exact ih (fun kv2 hkv2 => h kv2 (by simp [hkv2])) b

/-- C5 counterexample: a `jp_sentence` column holding the non-empty value
`" "` (one space) is overwritten by the merge step, because the code tests
emptiness after trimming. -/
theorem applySentenceResults_overwrites_whitespace :
    getCol [(jpCol, mkStr " "), (thCol, []), (exprCol, mkStr "x")] jpCol ≠ []
    ∧ (applySentenceResults [[(jpCol, mkStr " "), (thCol, []), (exprCol, mkStr "x")]]
        [(some 0, some (mkStr "X", mkStr "Y"))]).map (fun r => getCol r jpCol)
      = [mkStr "X"] := by
  constructor
  · decide
  · decide

/-- C5 amended: a candidate is accepted only when both sub-fields are
non-empty after trimming; it is applied to a record's column only when that
column is blank after trimming (a whitespace-only value counts as empty and
may be overwritten); a column holding a value that is non-empty after
trimming is never changed, and all other columns of every record are left
unchanged. -/
theorem applySentenceResults_frame (batch : List Record) (results : List SentKV) :
    SentInv batch (applySentenceResults batch results)
    ∧ ((∀ kv ∈ results, SentKVBlank kv) → applySentenceResults batch results = batch) := by
  constructor
  · exact sentInv_foldl batch results batch (sentInv_refl batch)
  · intro hb
    exact foldl_applySentKV_blank results hb batch

/-- C5 witness: the frame invariant and the all-blank no-op at concrete
inputs. -/
theorem applySentenceResults_frame_witness :
    SentInv [[(exprCol, mkStr "x")]]
      (applySentenceResults [[(exprCol, mkStr "x")]] [(some 0, some (mkStr "A", mkStr "B"))])
    ∧ applySentenceResults [[(exprCol, mkStr "x")]] [(some 0, some (mkStr " ", mkStr "B"))]
      = [[(exprCol, mkStr "x")]] :=
  ⟨(applySentenceResults_frame [[(exprCol, mkStr "x")]]
      [(some 0, some (mkStr "A", mkStr "B"))]).1,
   (applySentenceResults_frame [[(exprCol, mkStr "x")]]
      [(some 0, some (mkStr " ", mkStr "B"))]).2
     (by
       intro kv hkv
       rw [List.mem_singleton] at hkv
       subst hkv
       exact Or.inr ⟨mkStr " ", mkStr "B", rfl, Or.inl (by decide)⟩)⟩

-- ---------------------------------------------------------------------------
-- add_sentences.py process_file / main as a state machine over an oracle
-- ---------------------------------------------------------------------------

/-- Skip-predicate component for one sentence row (process_file line 212):
both sentence columns non-blank. -/
def rowSentDone (r : Record) : Bool :=
  !(stripChars (getCol r jpCol)).isEmpty && !(stripChars (getCol r thCol)).isEmpty

/-- Indices of batch rows put into the prompt (generate_sentences_batch
lines 100-112): rows that already have both sentences, or whose expression
is blank, are left out. -/
def sentItemIdxs (batch : List Record) : List Nat :=
  (List.range batch.length).filter (fun i =>
    !rowSentDone (batch.getD i []) &&
      !(stripChars (getCol (batch.getD i []) exprCol)).isEmpty)

/-- One response of the external service for a sentence-batch request:
either a successful response already passed through the codec, or a raised
exception carrying its message text. -/
inductive SentOutcome where
  | success : List SentKV → SentOutcome
  | err : Str → SentOutcome
deriving DecidableEq

/-- The retry loop of generate_sentences_batch (lines 138-167): each
attempt issues one request (consuming one oracle position); a quota-fatal
error re-raises immediately without further attempts; any other error
backs off (sleeping is not modelled) and retries; on exhausted attempts
the function returns an empty result map.  Returns the outcome and the
next oracle cursor. -/
def genSentLoop (oracle : Nat → SentOutcome) : Nat → Nat → Except Str (List SentKV) × Nat
  | 0, cursor => (.ok [], cursor)
  | fuel + 1, cursor =>
    match oracle cursor with
    | .success res => (.ok res, cursor + 1)
    | .err m =>
      if is_quota_daily_free_tier m then (.error m, cursor + 1)
      else genSentLoop oracle fuel (cursor + 1)

/-- generate_sentences_batch: when no row needs anything the function
returns an empty map without issuing a request. -/
def generate_sentences_batch (oracle : Nat → SentOutcome) (maxRetries cursor : Nat)
    (batch : List Record) : Except Str (List SentKV) × Nat :=
  if sentItemIdxs batch = [] then (.ok [], cursor)
  else genSentLoop oracle maxRetries cursor

/-- Mutable state of one run of add_sentences.py process_file.  `cursor`
counts requests actually issued to the service (it indexes the oracle);
`writes` records each checkpoint snapshot in order. -/
structure SentState where
  rows : List Record
  apiCalls : Nat
  cursor : Nat
  batchesSince : Nat
  paceCount : Nat
  writes : List (List Record)
deriving DecidableEq

/-- Result of process_file: natural completion, quota-fatal early return
(after its checkpoint write), or an uncaught exception propagating out. -/
inductive SentResult where
  | done : SentState → SentResult
  | fatal : SentState → SentResult
  | crash : SentState → Str → SentResult
deriving DecidableEq

/-- `range(0, total, batch_size)`. -/
def batchStarts (total bs : Nat) : List Nat :=
  List.range' 0 ((total + bs - 1) / bs) bs

/-- The batch loop of add_sentences.py process_file (lines 208-261),
driven by the list of batch start offsets. -/
def runSentBatches (oracle : Nat → SentOutcome) (bs ckptEvery maxRetries : Nat) :
    List Nat → SentState → SentResult
  | [], st => .done { st with writes := st.writes ++ [st.rows] }
  | start :: rest, st =>
    let batch := (st.rows.drop start).take bs
    if batch.all rowSentDone then
      runSentBatches oracle bs ckptEvery maxRetries rest st
    else
      let st1 := { st with paceCount := st.paceCount + 1 }
      match generate_sentences_batch oracle maxRetries st1.cursor batch with
      | (.error msg, cur2) =>
        let st2 := { st1 with cursor := cur2 }
        if is_quota_daily_free_tier msg then
          .fatal { st2 with writes := st2.writes ++ [st2.rows] }
        else .crash st2 msg
      | (.ok res, cur2) =>
        let st2 := { st1 with cursor := cur2, apiCalls := st1.apiCalls + 1 }
        let batch2 := applySentenceResults batch res
        let rows2 := st2.rows.take start ++ batch2 ++ st2.rows.drop (start + batch.length)
        let st3 := { st2 with rows := rows2, batchesSince := st2.batchesSince + 1 }
        let st4 :=
          if ckptEvery ≤ st3.batchesSince then
            { st3 with writes := st3.writes ++ [rows2], batchesSince := 0 }
          else st3
        runSentBatches oracle bs ckptEvery maxRetries rest st4

def initSentState (rows : List Record) (cursor : Nat) : SentState :=
  ⟨rows, 0, cursor, 0, 0, []⟩

/-- One call of add_sentences.py process_file on already-loaded rows. -/
def processFileSent (oracle : Nat → SentOutcome) (bs ckptEvery maxRetries : Nat)
    (rows : List Record) (cursor : Nat) : SentResult :=
  runSentBatches oracle bs ckptEvery maxRetries (batchStarts rows.length bs)
    (initSentState rows cursor)

def sentCursorOf : SentResult → Nat
  | .done st => st.cursor
  | .fatal st => st.cursor
  | .crash st _ => st.cursor

/-- The file loop of add_sentences.py main (lines 284-293): each requested
file is processed in turn; a quota-fatal condition makes process_file
return normally after its checkpoint, so the loop continues with the next
file; any other raised exception propagates and aborts the loop. -/
def runSentMain (oracle : Nat → SentOutcome) (bs ckptEvery maxRetries : Nat) :
    Nat → List (List Record) → List SentResult × Nat
  | cursor, [] => ([], cursor)
  | cursor, f :: fs =>
    match processFileSent oracle bs ckptEvery maxRetries f cursor with
    | .crash st m => ([.crash st m], st.cursor)
    | r =>
      let rest := runSentMain oracle bs ckptEvery maxRetries (sentCursorOf r) fs
      (r :: rest.1, rest.2)

/-- An error message matching the daily free-tier (quota-fatal) pattern. -/
def fatalMsg : Str :=
  mkStr "429 generate_content_free_tier_requests GenerateRequestsPerDayPerProjectPerModel-FreeTier"

/-- A service whose every response is the quota-fatal error. -/
def oracleAllFatal : Nat → SentOutcome := fun _ => .err fatalMsg

/-- A row still needing both sentences, with a non-blank expression. -/
def needyRow : Record := [(exprCol, mkStr "x"), (jpCol, []), (thCol, [])]

/-- C1 counterexample: with two requested files and a service that reports
daily free-tier exhaustion on every request, the first file's batch draws
the quota-fatal error (one request), process_file checkpoints and returns —
and main then proceeds to the second file, whose batch is attempted too:
two requests in total, so the quota-fatal condition does NOT terminate the
entire run and a further batch of another file IS attempted. -/
theorem runSentMain_attempts_after_fatal :
    (runSentMain oracleAllFatal 1 2 3 0 [[needyRow], [needyRow]]).2 = 2
    ∧ (runSentMain oracleAllFatal 1 2 3 0 [[needyRow], [needyRow]]).1
      = [.fatal ⟨[needyRow], 0, 1, 0, 1, [[needyRow]]⟩,
         .fatal ⟨[needyRow], 0, 2, 0, 1, [[needyRow]]⟩] := by
  constructor
  · decide
  · decide

/-- When the attempt loop's first `j` requests draw non-fatal errors
(transient or other; both retry uniformly) and request `j + 1` draws a
quota-fatal error, the loop raises immediately: it consumes exactly
`j + 1` oracle positions and stops, regardless of the remaining retry
budget. -/
theorem genSentLoop_fatal (oracle : Nat → SentOutcome) (j : Nat) :
    ∀ (fuel cursor : Nat) (m : Str), j < fuel →
      (∀ i, i < j →
        ∃ mi, oracle (cursor + i) = .err mi ∧ is_quota_daily_free_tier mi = false) →
      oracle (cursor + j) = .err m →
      is_quota_daily_free_tier m = true →
      genSentLoop oracle fuel cursor = (.error m, cursor + j + 1) := by
  induction j with
  | zero =>
    intro fuel cursor m hj htrans horacle hfatal
    obtain ⟨k, rfl⟩ : ∃ k, fuel = k + 1 := ⟨fuel - 1, by omega⟩
    rw [Nat.add_zero] at horacle
    simp only [genSentLoop, horacle, hfatal, if_true]
  | succ n ih =>
    intro fuel cursor m hj htrans horacle hfatal
    obtain ⟨k, rfl⟩ : ∃ k, fuel = k + 1 := ⟨fuel - 1, by omega⟩
    obtain ⟨m0, hm0, hm0f⟩ := htrans 0 (by omega)
    rw [Nat.add_zero] at hm0
    have hrec : genSentLoop oracle k (cursor + 1) = (.error m, cursor + 1 + n + 1) := by
      apply ih k (cursor + 1) m (by omega)
      · intro i hi
        obtain ⟨mi, hmi, hmif⟩ := htrans (i + 1) (by omega)
        refine ⟨mi, ?_, hmif⟩
        rw [show cursor + 1 + i = cursor + (i + 1) by omega]
        exact hmi
      · rw [show cursor + 1 + n = cursor + (n + 1) by omega]
        exact horacle
      · exact hfatal
    simp only [genSentLoop, hm0, hm0f, Bool.false_eq_true, if_false, hrec]
    have harith : cursor + 1 + n + 1 = cursor + (n + 1) + 1 := by omega
    rw [harith]

/-- C1 amended: if a quota-fatal response arrives while processing a batch
— at any batch offset, from any mid-run state (earlier batches may already
have succeeded and checkpointed), on any attempt, including after
transient-error retries — then processing of the current FILE performs
exactly one further checkpoint write of the current in-memory rows and
terminates that file immediately: the result does not depend on the
remaining batch list (so no further batch of that file is attempted), the
rows are left exactly as they were when the fatal response arrived (so no
later record of the file is mutated), and the oracle cursor stops right
after the fatal request (so the quota-fatal condition is never retried
within the file, despite remaining retry budget).  The run as a whole
however proceeds to the next requested file (see the counterexample),
whose batches may still be attempted. -/
theorem runSentBatches_fatal_stop (oracle : Nat → SentOutcome)
    (bs ckptEvery maxRetries : Nat) (start : Nat) (rest : List Nat)
    (st : SentState) (m : Str) (j : Nat)
    (hskip : ((st.rows.drop start).take bs).all rowSentDone = false)
    (hitems : sentItemIdxs ((st.rows.drop start).take bs) ≠ [])
    (hj : j < maxRetries)
    (htrans : ∀ i, i < j →
      ∃ mi, oracle (st.cursor + i) = .err mi ∧ is_quota_daily_free_tier mi = false)
    (horacle : oracle (st.cursor + j) = .err m)
    (hfatal : is_quota_daily_free_tier m = true) :
    runSentBatches oracle bs ckptEvery maxRetries (start :: rest) st
      = .fatal
          { st with
              paceCount := st.paceCount + 1
              cursor := st.cursor + j + 1
              writes := st.writes ++ [st.rows] } := by
  have hgen : generate_sentences_batch oracle maxRetries st.cursor
      ((st.rows.drop start).take bs) = (.error m, st.cursor + j + 1) := by
    unfold generate_sentences_batch
    rw [if_neg hitems]
    exact genSentLoop_fatal oracle j maxRetries st.cursor m hj htrans horacle hfatal
  conv_lhs => rw [runSentBatches]
  simp only [hskip, Bool.false_eq_true, if_false, hgen, hfatal, if_true]

/-- A transient (rate-window) error message: classified quota-transient,
not quota-fatal. -/
def transientMsg : Str := mkStr "429 Too Many Requests"

/-- A service whose first response is transient and every later one is
the quota-fatal error. -/
def oracleTransientThenFatal : Nat → SentOutcome :=
  fun n => if n = 0 then .err transientMsg else .err fatalMsg

/-- C1 witness: the fatal short-circuit at a mid-run state (one earlier
checkpoint already written, non-zero counters), on the batch at offset 1,
where the fatal arrives on the second attempt after one transient retry:
exactly one further write of the current rows, cursor stopped right after
the fatal request, rows unchanged. -/
theorem runSentBatches_fatal_stop_witness :
    runSentBatches oracleTransientThenFatal 1 2 3 [1, 2]
        ⟨[needyRow, needyRow], 1, 0, 1, 2, [[needyRow]]⟩
      = .fatal ⟨[needyRow, needyRow], 1, 2, 1, 3, [[needyRow], [needyRow, needyRow]]⟩ := by
  have h := runSentBatches_fatal_stop oracleTransientThenFatal 1 2 3 1 [2]
    ⟨[needyRow, needyRow], 1, 0, 1, 2, [[needyRow]]⟩ fatalMsg 1
    (by decide) (by decide) (by decide)
    (by
      intro i hi
      have hi0 : i = 0 := by omega
      subst hi0
      exact ⟨transientMsg, rfl, by decide⟩)
    (by rfl) (by decide)
  simpa using h

-- ---------------------------------------------------------------------------
-- update_thai_meanings.py process_file as a state machine over an oracle
-- ---------------------------------------------------------------------------

/-- The adaptive quota state of update_thai_meanings.py process_file
(lines 230-233): the currently selected model identity, the cooldown
ladder level, and the consecutive quota-failure counter. -/
structure Adaptive where
  current : Str
  level : Int
  quotaFails : Nat
deriving DecidableEq

/-- The success transition (lines 287-290): reset the failure streak,
relax the cooldown level by one with a floor of zero, return to the
primary model. -/
def onSuccess (primaryName : Str) (a : Adaptive) : Adaptive :=
  { current := primaryName, level := max 0 (a.level - 1), quotaFails := 0 }

/-- The quota-failure transition (lines 296-302): bump the streak,
escalate the cooldown level capped at the top of the ladder
(`min(level + 1, len(schedule) - 1)`), and switch to the fallback model
once the streak reaches two — `and fallback_model` is Python truthiness,
so an empty fallback name disables the switch. -/
def onQuotaFail (fallbackName : Str) (ladderLen : Nat) (a : Adaptive) : Adaptive :=
  { current :=
      if 2 ≤ a.quotaFails + 1 ∧ fallbackName ≠ [] then fallbackName else a.current,
    level := min (a.level + 1) ((ladderLen : Int) - 1),
    quotaFails := a.quotaFails + 1 }

/-- Rows of the batch that still need synonyms
(generate_additions_batch_once lines 144-155). -/
def thaiItemIdxs (target : Nat) (batch : List Record) : List Nat :=
  (List.range batch.length).filter (fun i =>
    !(rowNeedThai target (getCol (batch.getD i []) meaningCol) == 0))

/-- One response of the external service for a synonym-batch request. -/
inductive ThaiOutcome where
  | success : List (Option Int × Str) → ThaiOutcome
  | err : Str → ThaiOutcome
deriving DecidableEq

/-- Mutable state of one run of update_thai_meanings.py process_file.
`cursor` counts requests actually issued (it indexes the oracle); `writes`
records each checkpoint snapshot in order. -/
structure ThaiState where
  rows : List Record
  updatedRows : Nat
  apiCalls : Nat
  cursor : Nat
  batchesSince : Nat
  paceCount : Nat
  writes : List (List Record)
  adapt : Adaptive
deriving DecidableEq

/-- The per-batch retry loop of update_thai_meanings.py process_file
(lines 246-321).  Each attempt paces first; a batch with no needy rows
returns an empty result without issuing a request; a success applies the
merge loop and relaxes the adaptive state; a quota-classified error
escalates it (the cooldown sleep and its jitter are not modelled); any
other error retries after a short backoff.  Returns the updated batch and
state. -/
def thaiAttemptLoop (oracle : Nat → ThaiOutcome) (primary fallback : Str)
    (ladderLen target : Nat) : Nat → List Record → ThaiState → List Record × ThaiState
  | 0, batch, st => (batch, st)
  | fuel + 1, batch, st =>
    let st1 := { st with paceCount := st.paceCount + 1 }
    if thaiItemIdxs target batch = [] then
      (batch,
        { st1 with
            apiCalls := st1.apiCalls + 1
            adapt := onSuccess primary st1.adapt })
    else
      match oracle st1.cursor with
      | .success res =>
        let st2 := { st1 with cursor := st1.cursor + 1, apiCalls := st1.apiCalls + 1 }
        let br := applyThaiResults target batch res
        (br.1,
          { st2 with
              updatedRows := st2.updatedRows + br.2
              adapt := onSuccess primary st2.adapt })
      | .err m =>
        let st2 := { st1 with cursor := st1.cursor + 1 }
        if is_quota_error m then
          thaiAttemptLoop oracle primary fallback ladderLen target fuel batch
            { st2 with adapt := onQuotaFail fallback ladderLen st2.adapt }
        else
          thaiAttemptLoop oracle primary fallback ladderLen target fuel batch st2

/-- The batch loop of update_thai_meanings.py process_file (lines
235-332), driven by the list of batch start offsets. -/
def runThaiBatches (oracle : Nat → ThaiOutcome) (primary fallback : Str)
    (ladderLen bs ckptEvery maxRetries target : Nat) :
    List Nat → ThaiState → ThaiState
  | [], st => { st with writes := st.writes ++ [st.rows] }
  | start :: rest, st =>
    let batch := (st.rows.drop start).take bs
    if batch.all (rowSatThai target) then
      runThaiBatches oracle primary fallback ladderLen bs ckptEvery maxRetries target rest st
    else
      let br := thaiAttemptLoop oracle primary fallback ladderLen target maxRetries batch st
      let rows2 := br.2.rows.take start ++ br.1 ++ br.2.rows.drop (start + batch.length)
      let st2 := { br.2 with rows := rows2, batchesSince := br.2.batchesSince + 1 }
      let st3 :=
        if ckptEvery ≤ st2.batchesSince then
          { st2 with writes := st2.writes ++ [rows2], batchesSince := 0 }
        else st2
      runThaiBatches oracle primary fallback ladderLen bs ckptEvery maxRetries target rest st3

def initThaiState (rows : List Record) (primary : Str) (cursor : Nat) : ThaiState :=
  ⟨rows, 0, 0, cursor, 0, 0, [], ⟨primary, 0, 0⟩⟩

/-- One call of update_thai_meanings.py process_file on already-loaded
rows. -/
def processFileThai (oracle : Nat → ThaiOutcome) (primary fallback : Str)
    (ladderLen bs ckptEvery maxRetries target : Nat)
    (rows : List Record) (cursor : Nat) : ThaiState :=
  runThaiBatches oracle primary fallback ladderLen bs ckptEvery maxRetries target
    (batchStarts rows.length bs) (initThaiState rows primary cursor)

/-- C6: a batch in which every record already satisfies its field
requirement is skipped entirely, in both engines: the loop step on such a
batch equals the loop on the remaining batches with the state untouched —
no request is issued (the oracle cursor is part of the state), the pacing
delay is not consumed (the pace counter is part of the state), and the
batch does not count toward the checkpoint cadence (the
batches-since-checkpoint counter is part of the state). -/
theorem skip_batch_no_effect
    (oracleT : Nat → ThaiOutcome) (oracleS : Nat → SentOutcome)
    (primary fallback : Str) (L bs1 ck1 mr1 target bs2 ck2 mr2 : Nat)
    (start1 start2 : Nat) (restT restS : List Nat) (stT : ThaiState) (stS : SentState)
    (hT : ((stT.rows.drop start1).take bs1).all (rowSatThai target) = true)
    (hS : ((stS.rows.drop start2).take bs2).all rowSentDone = true) :
    runThaiBatches oracleT primary fallback L bs1 ck1 mr1 target (start1 :: restT) stT
      = runThaiBatches oracleT primary fallback L bs1 ck1 mr1 target restT stT
    ∧ runSentBatches oracleS bs2 ck2 mr2 (start2 :: restS) stS
      = runSentBatches oracleS bs2 ck2 mr2 restS stS := by
  constructor
  · conv_lhs => rw [runThaiBatches]
    simp [hT]
  · conv_lhs => rw [runSentBatches]
    simp [hS]

/-- C6 witness: the skip step at a concrete fully-satisfied batch in each
engine. -/
theorem skip_batch_no_effect_witness :
    runThaiBatches (fun _ => .err (mkStr "boom")) (mkStr "m") (mkStr "f") 6 1 4 3 2
        (0 :: []) (initThaiState [[(meaningCol, mkStr "a, b")]] (mkStr "m") 0)
      = runThaiBatches (fun _ => .err (mkStr "boom")) (mkStr "m") (mkStr "f") 6 1 4 3 2
        [] (initThaiState [[(meaningCol, mkStr "a, b")]] (mkStr "m") 0)
    ∧ runSentBatches (fun _ => .err (mkStr "boom")) 1 2 3
        (0 :: []) (initSentState [[(jpCol, mkStr "j"), (thCol, mkStr "t")]] 0)
      = runSentBatches (fun _ => .err (mkStr "boom")) 1 2 3
        [] (initSentState [[(jpCol, mkStr "j"), (thCol, mkStr "t")]] 0) :=
  skip_batch_no_effect (fun _ => .err (mkStr "boom")) (fun _ => .err (mkStr "boom"))
    (mkStr "m") (mkStr "f") 6 1 4 3 2 1 2 3 0 0 [] []
    (initThaiState [[(meaningCol, mkStr "a, b")]] (mkStr "m") 0)
    (initSentState [[(jpCol, mkStr "j"), (thCol, mkStr "t")]] 0)
    (by decide) (by decide)

/-- C7: starting from cooldown level 0, N consecutive transient-quota
failures move the level to `min(N, ladder_length - 1)`; the level stays
within `[0, ladder_length - 1]`; and one success afterwards decrements it
by exactly one, with a floor of zero.  `onQuotaFail` / `onSuccess` are the
engine's own per-failure / per-success transitions. -/
theorem cooldown_escalation (N L : Nat) (primary fallback : Str) (a0 : Adaptive)
    (hL : 1 ≤ L) (h0 : a0.level = 0) :
    (((onQuotaFail fallback L)^[N]) a0).level = min (N : Int) ((L : Int) - 1)
    ∧ 0 ≤ (((onQuotaFail fallback L)^[N]) a0).level
    ∧ (((onQuotaFail fallback L)^[N]) a0).level ≤ (L : Int) - 1
    ∧ (onSuccess primary (((onQuotaFail fallback L)^[N]) a0)).level
        = max 0 (min (N : Int) ((L : Int) - 1) - 1) := by
  have key : ∀ n : Nat,
      (((onQuotaFail fallback L)^[n]) a0).level = min (n : Int) ((L : Int) - 1) := by
    intro n
    induction n with
    | zero =>
      simp only [Function.iterate_zero, id_eq, h0, Nat.cast_zero]
      omega
    | succ n ih =>
      rw [Function.iterate_succ_apply']
      simp only [onQuotaFail, ih]
      push_cast
      omega
  refine ⟨key N, ?_, ?_, ?_⟩
  · rw [key N]; omega
  · rw [key N]; omega
  · simp only [onSuccess, key N]

/-- C7 witness: four failures against the six-rung ladder of the source,
then one success. -/
theorem cooldown_escalation_witness :
    (((onQuotaFail (mkStr "f") 6)^[4]) ⟨mkStr "m", 0, 0⟩).level = min (4 : Int) ((6 : Int) - 1)
    ∧ 0 ≤ (((onQuotaFail (mkStr "f") 6)^[4]) ⟨mkStr "m", 0, 0⟩).level
    ∧ (((onQuotaFail (mkStr "f") 6)^[4]) ⟨mkStr "m", 0, 0⟩).level ≤ (6 : Int) - 1
    ∧ (onSuccess (mkStr "m") (((onQuotaFail (mkStr "f") 6)^[4]) ⟨mkStr "m", 0, 0⟩)).level
        = max 0 (min (4 : Int) ((6 : Int) - 1) - 1) :=
  cooldown_escalation 4 6 (mkStr "m") (mkStr "f") ⟨mkStr "m", 0, 0⟩ (by decide) rfl

/-- C8: from any adaptive state, two consecutive quota-classified failures
switch the selected service identity to the configured fallback, and any
success reverts the identity to the primary and resets the
consecutive-failure counter to zero.  These are the transitions the
executor applies per failed attempt and per successful batch. -/
theorem fallback_switch (primary fallback : Str) (L : Nat) (a : Adaptive)
    (hfb : fallback ≠ []) :
    (onQuotaFail fallback L (onQuotaFail fallback L a)).current = fallback
    ∧ (onSuccess primary a).current = primary
    ∧ (onSuccess primary a).quotaFails = 0 := by
  refine ⟨?_, rfl, rfl⟩
  simp only [onQuotaFail]
  rw [if_pos ⟨by omega, hfb⟩]

/-- C8 witness: at a concrete adaptive state. -/
theorem fallback_switch_witness :
    (onQuotaFail (mkStr "f") 6 (onQuotaFail (mkStr "f") 6 ⟨mkStr "m", 0, 0⟩)).current
      = mkStr "f"
    ∧ (onSuccess (mkStr "m") ⟨mkStr "m", 0, 0⟩).current = mkStr "m"
    ∧ (onSuccess (mkStr "m") ⟨mkStr "m", 0, 0⟩).quotaFails = 0 :=
  fallback_switch (mkStr "m") (mkStr "f") 6 ⟨mkStr "m", 0, 0⟩ (by decide)

theorem runThai_all_sat (oracle : Nat → ThaiOutcome) (primary fallback : Str)
    (L bs ck mr target : Nat) (rows : List Record)
    (hsat : rows.all (rowSatThai target) = true) :
    ∀ (starts : List Nat) (st : ThaiState), st.rows = rows →
      runThaiBatches oracle primary fallback L bs ck mr target starts st
        = { st with writes := st.writes ++ [st.rows] } := by
  intro starts
  induction starts with
  | nil =>
    intro st _
    rw [runThaiBatches]
  | cons s rest ih =>
    intro st h
    have hb : ((st.rows.drop s).take bs).all (rowSatThai target) = true := by
      rw [h]
      rw [List.all_eq_true] at hsat ⊢
      intro r hr
      exact hsat r (((List.take_sublist _ _).trans (List.drop_sublist _ _)).mem hr)
    conv_lhs => rw [runThaiBatches]
    simp only [hb, if_pos]
    exact ih st h

/-- C9: on a dataset whose every record already satisfies its requirement,
the engine issues zero requests (oracle cursor unchanged), consumes no
pacing delay, leaves the rows unchanged, and writes exactly one final
snapshot equal to the loaded rows.  Running it again on the produced rows
therefore also issues zero requests and writes the same snapshot — and the
CSV serialization is a deterministic function of the row sequence, so the
second run's output file is byte-identical. -/
theorem processFileThai_idempotent (oracle oracle2 : Nat → ThaiOutcome)
    (primary fallback : Str) (L bs ck mr target : Nat)
    (rows : List Record) (c1 c2 : Nat)
    (hsat : rows.all (rowSatThai target) = true) :
    (processFileThai oracle primary fallback L bs ck mr target rows c1).rows = rows
    ∧ (processFileThai oracle primary fallback L bs ck mr target rows c1).cursor = c1
    ∧ (processFileThai oracle primary fallback L bs ck mr target rows c1).paceCount = 0
    ∧ (processFileThai oracle primary fallback L bs ck mr target rows c1).writes = [rows]
    ∧ (processFileThai oracle2 primary fallback L bs ck mr target
        (processFileThai oracle primary fallback L bs ck mr target rows c1).rows c2).cursor
      = c2
    ∧ (processFileThai oracle2 primary fallback L bs ck mr target
        (processFileThai oracle primary fallback L bs ck mr target rows c1).rows c2).writes
      = (processFileThai oracle primary fallback L bs ck mr target rows c1).writes := by
  have h1 : processFileThai oracle primary fallback L bs ck mr target rows c1
      = { initThaiState rows primary c1 with writes := [] ++ [rows] } := by
    unfold processFileThai
    exact runThai_all_sat oracle primary fallback L bs ck mr target rows hsat _ _ rfl
  have h2 : processFileThai oracle2 primary fallback L bs ck mr target rows c2
      = { initThaiState rows primary c2 with writes := [] ++ [rows] } := by
    unfold processFileThai
    exact runThai_all_sat oracle2 primary fallback L bs ck mr target rows hsat _ _ rfl
  rw [h1]
  simp [initThaiState, h2]

/-- C9 witness: a concrete fully-satisfied dataset. -/
theorem processFileThai_idempotent_witness :
    (processFileThai (fun _ => .err (mkStr "boom")) (mkStr "m") (mkStr "f") 6 1 4 3 2
        [[(meaningCol, mkStr "a, b")]] 0).rows = [[(meaningCol, mkStr "a, b")]]
    ∧ (processFileThai (fun _ => .err (mkStr "boom")) (mkStr "m") (mkStr "f") 6 1 4 3 2
        [[(meaningCol, mkStr "a, b")]] 0).cursor = 0
    ∧ (processFileThai (fun _ => .err (mkStr "boom")) (mkStr "m") (mkStr "f") 6 1 4 3 2
        [[(meaningCol, mkStr "a, b")]] 0).paceCount = 0
    ∧ (processFileThai (fun _ => .err (mkStr "boom")) (mkStr "m") (mkStr "f") 6 1 4 3 2
        [[(meaningCol, mkStr "a, b")]] 0).writes = [[[(meaningCol, mkStr "a, b")]]]
    ∧ (processFileThai (fun _ => .success []) (mkStr "m") (mkStr "f") 6 1 4 3 2
        (processFileThai (fun _ => .err (mkStr "boom")) (mkStr "m") (mkStr "f") 6 1 4 3 2
          [[(meaningCol, mkStr "a, b")]] 0).rows 7).cursor = 7
    ∧ (processFileThai (fun _ => .success []) (mkStr "m") (mkStr "f") 6 1 4 3 2
        (processFileThai (fun _ => .err (mkStr "boom")) (mkStr "m") (mkStr "f") 6 1 4 3 2
          [[(meaningCol, mkStr "a, b")]] 0).rows 7).writes
      = (processFileThai (fun _ => .err (mkStr "boom")) (mkStr "m") (mkStr "f") 6 1 4 3 2
          [[(meaningCol, mkStr "a, b")]] 0).writes :=
  processFileThai_idempotent (fun _ => .err (mkStr "boom")) (fun _ => .success [])
    (mkStr "m") (mkStr "f") 6 1 4 3 2 [[(meaningCol, mkStr "a, b")]] 0 7 (by decide)
